import Mathlib

/-!
A shallow embedding of the core sorting, grouping and file-materialization
logic of tools/sort/sort.py, together with theorems checking the
natural-language specification against it.  Machine floats are modelled as
exact rationals, the float infinity used by the source as an initial best
score is modelled as the value none of Option Rat, and the filesystem is
modelled as the list of existing paths.
-/

namespace FaceSort

attribute [local semireducible] Rat.add Rat.sub Rat.mul Rat.inv

/-- Score values: some q is a finite score, none models the float infinity
used by the source as the initial best score and as the result of a caught
comparator exception. -/
abbrev Score := Option ℚ

/-- Strict comparison of scores, treating none as positive infinity,
matching Python float comparison against inf. -/
def scoreLt : Score → Score → Bool
  | some a, some b => decide (a < b)
  | some _, none => true
  | none, _ => false

/-- Non-strict score order (none is the top element). -/
def scoreLe : Score → Score → Prop
  | _, none => True
  | none, some _ => False
  | some a, some b => a ≤ b

/-- The running-minimum scan shared by the chain-sort inner loop of
sort_face_cnn and sort_hist and by the group search of group_face_cnn and
group_hist: fold over candidate scores keeping the index and value of the
best score seen so far, updating only on a strict improvement, exactly as
the Python statement if score < min_score. -/
def best_scan : List Score → Nat → Int × Score → Int × Score
  | [], _, best => best
  | s :: rest, k, best =>
    best_scan rest (k + 1) (if scoreLt s best.2 then ((k : Int), s) else best)

/-- Swapping two positions of a list, the translation of the Python
parallel assignment of seq at a and b.  Out-of-range positions leave the
list unchanged; the source never reaches that case. -/
def swap_items (l : List α) (a b : Nat) : List α :=
  match l[a]?, l[b]? with
  | some x, some y => (l.set a y).set b x
  | _, _ => l

/-- Index selected by one step of the greedy chain sort: the scan of the
distances from x to the items at positions i+1 .. n-1, starting from
j_min_score = i+1 and min_score = inf as in sort_face_cnn and sort_hist. -/
def chain_sel (d : α → α → ℚ) (x : α) (l : List α) (i : Nat) : Nat :=
  (best_scan ((l.drop (i + 1)).map (fun y => some (d x y))) (i + 1)
    (((i + 1 : Nat) : Int), none)).1.toNat

/-- One iteration of the outer loop of sort_face_cnn and sort_hist: select
the nearest neighbour of the item at i among positions i+1 .. n-1 and swap
it into position i+1. -/
def chain_step (d : α → α → ℚ) (l : List α) (i : Nat) : List α :=
  match l[i]? with
  | none => l
  | some x => swap_items l (i + 1) (chain_sel d x l i)

/-- The outer loop over i in range(0, n - 1) of the chain sorts. -/
def chain_from (d : α → α → ℚ) : List α → Nat → Nat → List α
  | l, _, 0 => l
  | l, i, steps + 1 => chain_from d (chain_step d l i) (i + 1) steps

/-- Greedy nearest-neighbour chaining as in sort_face_cnn and sort_hist,
generic in the pairwise dissimilarity d. -/
def chain_sort (d : α → α → ℚ) (l : List α) : List α :=
  chain_from d l 0 (l.length - 1)

/-- A landmark set: the rows of the 68 x 2 numpy landmark array. -/
abbrev Lmk := List (List ℚ)

/-- Sum of absolute differences of two rows, paired pointwise. -/
def rowAbsDiff (r1 r2 : List ℚ) : ℚ :=
  ((r1.zip r2).map (fun p => |p.1 - p.2|)).sum

/-- np.sum of np.absolute of (fl2 - fl1) flattened, for two landmark
arrays of the same shape: the comparison score of sort_face_cnn. -/
def cnn_score (fl1 fl2 : Lmk) : ℚ :=
  ((fl2.zip fl1).map (fun p => rowAbsDiff p.1 p.2)).sum

/-- sort_face_cnn: chain sort of (filename, landmarks) pairs by the L1
landmark distance. -/
def sort_face_cnn (l : List (String × Lmk)) : List (String × Lmk) :=
  chain_sort (fun a b => cnn_score a.2 b.2) l

/-- sorted(blurs, key = the score component, reverse=True): stable
descending sort of (filename, score) pairs by score, as in sort_blur,
sort_blur_fft, sort_face_yaw and sort_size. -/
def sort_blur (l : List (String × ℚ)) : List (String × ℚ) :=
  l.mergeSort (fun a b => decide (b.2 ≤ a.2))

/-- Total dissimilarity score of the item x at position i: the inner loop
for j in range(i + 1, n) of sort_face_cnn_dissim.  Only later items are
summed; for the last item, which the outer loop never reaches, the
initialized score 0 coincides with the empty sum. -/
def dissim_total (d : α → α → ℚ) (l : List α) (x : α) (i : Nat) : ℚ :=
  ((l.drop (i + 1)).map (fun y => d x y)).sum

/-- sort_face_cnn_dissim: annotate every (filename, landmarks) pair with
its total dissimilarity score, then sort descending by that score. -/
def sort_face_cnn_dissim (l : List (String × Lmk)) : List (String × Lmk × ℚ) :=
  (l.enum.map (fun p =>
    (p.2.1, p.2.2, dissim_total (fun a b => cnn_score a.2 b.2) l p.2 p.1))).mergeSort
    (fun a b => decide (b.2.2 ≤ a.2.2))

/-- The inner loop of the equal-split groupers group_blur, group_blur_fft
and group_face_yaw: append num_per_bin consecutive filenames starting at
the running index idx. -/
def fill_bin (l : List (String × ℚ)) (idx q : Nat) : List String :=
  ((l.drop idx).take q).map Prod.fst

/-- The outer loop of the equal-split groupers: one bin of q filenames per
iteration, threading the running index idx. -/
def distribute (l : List (String × ℚ)) (q : Nat) : Nat → Nat → List (List String)
  | _, 0 => []
  | idx, m + 1 => fill_bin l idx q :: distribute l q (idx + q) m

/-- The remainder loop for i in range(1, remainder + 1) appending the item
at the negative index -i, which is the item at n - i. -/
def tail_pick (l : List (String × ℚ)) : Nat → Nat → List String
  | _, 0 => []
  | i, m + 1 => (l.getD (l.length - i) ("", 0)).1 :: tail_pick l (i + 1) m

/-- Repeated appends to the last bin. -/
def append_last (bins : List (List String)) (extra : List String) :
    List (List String) :=
  bins.dropLast ++ [bins.getLastD [] ++ extra]

/-- group_blur, group_blur_fft and group_face_yaw: equal split of the
ordered list into num_bins bins, the remainder going to the last bin in
reverse positional order.  num_bins = 0 raises ZeroDivisionError in the
source, modelled as none. -/
def group_blur (num_bins : Nat) (l : List (String × ℚ)) :
    Option (List (List String)) :=
  if num_bins = 0 then none
  else some (append_last (distribute l (l.length / num_bins) 0 num_bins)
    (tail_pick l 1 (l.length % num_bins)))

/-- Cumulative sums for the edge construction of _near_split. -/
def cumsum (acc : Nat) : List Nat → List Nat
  | [] => []
  | s :: rest => (acc + s) :: cumsum (acc + s) rest

/-- _near_split: bin edges for the given range and bin count; the first
remainder separators are quotient + 1 wide, the remaining ones quotient
wide, and the edges are the cumulative sums starting at 0. -/
def near_split (bin_range num_bins : Nat) : List Nat :=
  let q := bin_range / num_bins
  let r := bin_range % num_bins
  0 :: cumsum 0 (List.replicate r (q + 1) ++ List.replicate (num_bins - r) q)

/-- np.digitize(v, edges, right=True) for monotone edges: the number of
edges strictly below the value, which for sorted edges is the least k with
edges[k] at least v, or the edge count when no edge reaches v. -/
def digitize (v : ℚ) (edges : List Nat) : Nat :=
  edges.countP (fun (e : Nat) => decide ((e : ℚ) < v))

/-- Append a filename to the bin at index k. -/
def append_at (bins : List (List String)) (k : Nat) (fid : String) :
    List (List String) :=
  bins.set k ((bins.getD k []) ++ [fid])

/-- The placement loop of group_black_pixels; an index outside the bins
list raises IndexError, modelled as none. -/
def place_all (bins : List (List String)) :
    List (String × Nat) → Option (List (List String))
  | [] => some bins
  | (fid, k) :: rest =>
    if k < bins.length then place_all (append_at bins k fid) rest else none

/-- group_black_pixels: threshold-edge binning of scalar values over the
range 0..100.  num_bins = 0 raises ZeroDivisionError inside _near_split,
modelled as none. -/
def group_black_pixels (num_bins : Nat) (l : List (String × ℚ)) :
    Option (List (List String)) :=
  if num_bins = 0 then none
  else
    place_all (List.replicate num_bins [])
      (l.map (fun p => (p.1, digitize p.2 (near_split 100 num_bins))))

/-- A numpy array as stored in the face-cnn reference groups: the full 2-D
landmark array when a group is seeded, or the single first row appended
when an item is accepted into a group. -/
inductive NArr where
  | mat : Lmk → NArr
  | vec : List ℚ → NArr
deriving DecidableEq

/-- np.sum of np.absolute of (fl2 - fl1) flattened, where fl1 is a 2-D
landmark array and fl2 a stored reference; a 1-D reference broadcasts
against every row.  A shape mismatch raises, modelled as none. -/
def abs_sub_sum : NArr → Lmk → Option ℚ
  | NArr.mat m, fl1 =>
    if m.length = fl1.length ∧ ∀ p ∈ m.zip fl1, p.1.length = p.2.length then
      some (((m.zip fl1).map (fun p => rowAbsDiff p.1 p.2)).sum)
    else none
  | NArr.vec v, fl1 =>
    if ∀ r ∈ fl1, r.length = v.length then
      some ((fl1.map (fun r => rowAbsDiff v r)).sum)
    else none

/-- get_avg_score_faces_cnn: the mean of the scores of fl1 against every
stored reference of a group.  An empty group divides by zero and a shape
error raises; both are caught by the caller and modelled as none. -/
def get_avg_score_faces_cnn (fl1 : Lmk) (references : List NArr) : Option ℚ :=
  match references.mapM (fun fl2 => abs_sub_sum fl2 fl1) with
  | none => none
  | some scores =>
    if references.length = 0 then none
    else some (scores.sum / (references.length : ℚ))

/-- State of the face-cnn clustering: reference_groups (group number k is
position k) and the parallel bins of filenames. -/
structure CnnState where
  groups : List (List NArr)
  bins : List (List String)
deriving DecidableEq

/-- The inner group search of group_face_cnn: walk the groups in key order
with current_best starting at (-1, inf), keeping the first strict minimum
of the mean scores; a caught comparator exception scores none. -/
def cnn_best (fl1 : Lmk) (groups : List (List NArr)) : Int × Score :=
  best_scan (groups.map (fun refs => get_avg_score_faces_cnn fl1 refs)) 0 (-1, none)

/-- One iteration of group_face_cnn: accept the item into the best group
when the best mean score is strictly below the scaled threshold mt,
appending the first landmark row to that group and the filename to its
bin; otherwise seed a new singleton group. -/
def cnn_step (mt : ℚ) (st : CnnState) (item : String × Lmk) : CnnState :=
  let best := cnn_best item.2 st.groups
  if scoreLt best.2 (some mt) then
    { groups := st.groups.set best.1.toNat
        ((st.groups.getD best.1.toNat []) ++ [NArr.vec (item.2.headD [])]),
      bins := append_at st.bins best.1.toNat item.1 }
  else
    { groups := st.groups ++ [[NArr.mat item.2]], bins := st.bins ++ [[item.1]] }

/-- group_face_cnn: online reference clustering of (filename, landmarks)
pairs.  The configured threshold is multiplied by 1000, and the loop runs
for i in range(0, len(img_list) - 1), covering every item except the last
one. -/
def group_face_cnn (min_threshold : ℚ) (l : List (String × Lmk)) :
    List (List String) :=
  (l.dropLast.foldl (cnn_step (min_threshold * 1000))
    { groups := [], bins := [] }).bins

/-- The filesystem, as the list of existing paths. -/
abbrev FS := List String

/-- The ChangeLog: an insertion-ordered association list with Python dict
update semantics. -/
abbrev Changes := List (String × String)

/-- Python dict assignment: overwrite the binding in place, or append. -/
def setKey : Changes → String → String → Changes
  | [], k, v => [(k, v)]
  | (k0, v0) :: rest, k, v =>
    if k0 = k then (k, v) :: rest else (k0, v0) :: setKey rest k v

/-- Python dict lookup. -/
def lookupKey : Changes → String → Option String
  | [], _ => none
  | (k0, v0) :: rest, k => if k0 = k then some v0 else lookupKey rest k

/-- os.path.basename: the part after the last slash. -/
def basename (s : String) : String :=
  String.mk ((s.data.reverse.takeWhile (fun c => c != '/')).reverse)

/-- The extension part of os.path.splitext of a basename: from the last
dot, unless the characters before that dot are empty or all dots. -/
def ext_of (s : String) : String :=
  let b := (basename s).data
  let revTail := b.reverse.takeWhile (fun c => c != '.')
  if revTail.length = b.length then ""
  else
    let stem := b.take (b.length - revTail.length - 1)
    if stem.all (fun c => c == '.') then ""
    else String.mk ('.' :: revTail.reverse)

/-- The five digit zero padded index of the Python format string. -/
def pad5 (i : Nat) : String :=
  let s := toString i
  String.mk (List.replicate (5 - s.length) '0' ++ s.data)

/-- os.path.join of a directory and a file name. -/
def pjoin (dir file : String) : String := dir ++ "/" ++ file

/-- shutil.copyfile: requires the source to exist, creates or overwrites
the destination; a missing source raises FileNotFoundError, none. -/
def fs_copy (fs : FS) (src dst : String) : Option FS :=
  if fs.contains src then some (if fs.contains dst then fs else fs ++ [dst])
  else none

/-- os.rename: requires the source to exist, removes it and creates or
overwrites the destination. -/
def fs_rename (fs : FS) (src dst : String) : Option FS :=
  if fs.contains src then
    some (if (fs.erase src).contains dst then fs.erase src
      else fs.erase src ++ [dst])
  else none

/-- set_process_file_method: the four closures keyed by log_changes and
keep_original.  The ChangeLog update for src is made only after the file
operation succeeded; a raised FileNotFoundError is none. -/
def process_file (log_changes keep_original : Bool) (src dst : String)
    (fs : FS) (ch : Changes) : Option (FS × Changes) :=
  match (if keep_original then fs_copy fs src dst else fs_rename fs src dst) with
  | none => none
  | some fs2 => some (fs2, if log_changes then setKey ch src dst else ch)

/-- set_renaming_method: compute the scratch source and final destination
for position i; when logging, the ChangeLog update for src is recorded
here, before the caller attempts the rename. -/
def renaming_m (log_changes : Bool) (src output_dir : String) (i : Nat)
    (ch : Changes) : String × String × Changes :=
  let b := basename src
  let scratch := pjoin output_dir (pad5 i ++ "_" ++ b)
  let dst := pjoin output_dir (pad5 i ++ ext_of b)
  (scratch, dst, if log_changes then setKey ch src dst else ch)

/-- First loop of final_process_rename: copy or move every item to its
scratch name; FileNotFoundError is logged and the item skipped. -/
def phase1 (log_changes keep_original : Bool) (output_dir : String) :
    List (Nat × String) → FS × Changes → FS × Changes
  | [], st => st
  | (i, src) :: rest, (fs, ch) =>
    match process_file log_changes keep_original src
        (pjoin output_dir (pad5 i ++ "_" ++ basename src)) fs ch with
    | none => phase1 log_changes keep_original output_dir rest (fs, ch)
    | some st2 => phase1 log_changes keep_original output_dir rest st2

/-- Second loop of final_process_rename: rename every scratch name to the
flat indexed name; the ChangeLog update made inside renaming is kept even
when the rename itself fails. -/
def phase2 (log_changes : Bool) (output_dir : String) :
    List (Nat × String) → FS × Changes → FS × Changes
  | [], st => st
  | (i, src) :: rest, (fs, ch) =>
    let r := renaming_m log_changes src output_dir i ch
    match fs_rename fs r.1 r.2.1 with
    | none => phase2 log_changes output_dir rest (fs, r.2.2)
    | some fs2 => phase2 log_changes output_dir rest (fs2, r.2.2)

/-- final_process_rename: the two phase renumbering of the ordered list,
returning the filesystem and the ChangeLog that write_to_log persists. -/
def final_process_rename (log_changes keep_original : Bool)
    (output_dir : String) (img_list : List String) (fs : FS) : FS × Changes :=
  phase2 log_changes output_dir img_list.enum
    (phase1 log_changes keep_original output_dir img_list.enum (fs, []))

/-- Whether the first list starts the second one. -/
def isPrefOf : List Char → List Char → Bool
  | [], _ => true
  | _ :: _, [] => false
  | a :: as, b :: bs => a == b && isPrefOf as bs

/-- The Python substring test: needle in haystack. -/
def containsSub (needle : List Char) : List Char → Bool
  | [] => isPrefOf needle []
  | c :: rest => isPrefOf needle (c :: rest) || containsSub needle rest

/-- The Python substring test on strings. -/
def str_in (needle hay : String) : Bool := containsSub needle.data hay.data

/-- The recursion of str.replace(pat, "") with explicit fuel; every step
consumes at least one character, so fuel equal to the input length is
enough and the fuel-exhausted branch is never reached. -/
def strip_fuel (pat : List Char) : Nat → List Char → List Char
  | 0, l => l
  | _ + 1, [] => []
  | n + 1, c :: rest =>
    if pat ≠ [] ∧ isPrefOf pat (c :: rest) = true then
      strip_fuel pat n ((c :: rest).drop pat.length)
    else c :: strip_fuel pat n rest

/-- str.replace(pat, "") on character lists: delete every occurrence. -/
def strip_all (pat l : List Char) : List Char := strip_fuel pat l.length l

/-- group_method.replace("group_", "") as used by sort_process. -/
def strip_group (g : String) : String :=
  String.mk (strip_all "group_".data g.data)

/-- The reload test of sort_process: the stripped group method name is not
a substring of the sort method name. -/
def needs_reload (sort_method group_method : String) : Bool :=
  !(str_in (strip_group group_method) sort_method)

/-- The observable actions of sort_process, in order. -/
inductive PipeAction where
  | runSort (m : String)
  | runReload (m : String)
  | runGroup (m : String)
  | runFinal (m : String)
deriving DecidableEq

/-- sort_process: run the sort method; when the final method name contains
"folders", optionally reload_images and run the group method; then run the
final method. -/
def sort_process_trace (sort_method group_method final_method : String) :
    List PipeAction :=
  [PipeAction.runSort sort_method] ++
    (if str_in "folders" final_method then
      (if needs_reload sort_method group_method then
        [PipeAction.runReload group_method, PipeAction.runGroup group_method]
      else [PipeAction.runGroup group_method])
    else []) ++ [PipeAction.runFinal final_method]

/-! ### Order facts about scores -/

theorem scoreLe_refl (a : Score) : scoreLe a a := by
  cases a <;> simp [scoreLe]

theorem scoreLe_trans {a b c : Score} (h1 : scoreLe a b) (h2 : scoreLe b c) :
    scoreLe a c := by
  cases a <;> cases b <;> cases c <;> simp_all [scoreLe] <;> linarith

theorem scoreLe_of_lt {a b : Score} (h : scoreLt a b = true) : scoreLe a b := by
  cases a <;> cases b <;> simp_all [scoreLt, scoreLe] <;> linarith

theorem scoreLe_of_not_lt {a b : Score} (h : scoreLt a b = false) : scoreLe b a := by
  cases a <;> cases b <;> simp_all [scoreLt, scoreLe] <;> linarith

theorem scoreLt_of_le_of_lt {a b c : Score} (h1 : scoreLe a b)
    (h2 : scoreLt b c = true) : scoreLt a c = true := by
  cases a <;> cases b <;> cases c <;> simp_all [scoreLt, scoreLe] <;> linarith

theorem scoreLt_of_lt_of_le {a b c : Score} (h1 : scoreLt a b = true)
    (h2 : scoreLe b c) : scoreLt a c = true := by
  cases a <;> cases b <;> cases c <;> simp_all [scoreLt, scoreLe] <;> linarith

theorem scoreLe_none {b : Score} (h : scoreLe none b) : b = none := by
  cases b <;> simp_all [scoreLe]

theorem scoreLt_some {a : Score} {m : ℚ} (h : scoreLt a (some m) = true) :
    ∃ q, a = some q ∧ q < m := by
  cases a <;> simp_all [scoreLt]

/-! ### The running-minimum scan computes the first strict minimum -/

theorem best_scan_spec : ∀ (scores : List Score) (k0 : Nat) (b : Int × Score),
    scoreLe (best_scan scores k0 b).2 b.2 ∧
    (∀ m, m < scores.length → scoreLe (best_scan scores k0 b).2 (scores.getD m none)) ∧
    (best_scan scores k0 b = b ∨ ∃ m, m < scores.length ∧
      (best_scan scores k0 b).1 = ((k0 + m : Nat) : Int) ∧
      (best_scan scores k0 b).2 = scores.getD m none ∧
      scoreLt (best_scan scores k0 b).2 b.2 = true ∧
      ∀ m2, m2 < m → scoreLt (best_scan scores k0 b).2 (scores.getD m2 none) = true)
  | [], k0, b => by
    refine ⟨scoreLe_refl _, ?_, Or.inl rfl⟩
    intro m hm
    simp at hm
  | s :: rest, k0, b => by
    have ih := best_scan_spec rest (k0 + 1) (if scoreLt s b.2 then ((k0 : Int), s) else b)
    have hstep : best_scan (s :: rest) k0 b =
        best_scan rest (k0 + 1) (if scoreLt s b.2 then ((k0 : Int), s) else b) := rfl
    rw [hstep]
    by_cases h : scoreLt s b.2 = true
    · rw [if_pos h] at ih ⊢
      obtain ⟨ih1, ih2, ih3⟩ := ih
      refine ⟨scoreLe_trans (scoreLe_trans ih1 (scoreLe_refl _)) (scoreLe_of_lt h), ?_, ?_⟩
      · intro m hm
        cases m with
        | zero => simpa using ih1
        | succ m2 =>
          simp only [List.getD_cons_succ]
          exact ih2 m2 (by simpa using hm)
      · rcases ih3 with heq | ⟨m, hm, h1, h2, h3, h4⟩
        · refine Or.inr ⟨0, by simp, ?_, ?_, ?_, ?_⟩
          · rw [heq]; simp
          · rw [heq]; simp
          · rw [heq]; exact h
          · intro m2 hm2; omega
        · refine Or.inr ⟨m + 1, by simpa using hm, ?_, ?_, ?_, ?_⟩
          · rw [h1]; congr 1; omega
          · simpa using h2
          · exact scoreLt_of_lt_of_le h3 (scoreLe_of_lt h)
          · intro m2 hm2
            cases m2 with
            | zero => simpa using h3
            | succ m3 =>
              simp only [List.getD_cons_succ]
              exact h4 m3 (by omega)
    · rw [if_neg h] at ih ⊢
      rw [Bool.not_eq_true] at h
      obtain ⟨ih1, ih2, ih3⟩ := ih
      refine ⟨ih1, ?_, ?_⟩
      · intro m hm
        cases m with
        | zero => simpa using scoreLe_trans ih1 (scoreLe_of_not_lt h)
        | succ m2 =>
          simp only [List.getD_cons_succ]
          exact ih2 m2 (by simpa using hm)
      · rcases ih3 with heq | ⟨m, hm, h1, h2, h3, h4⟩
        · exact Or.inl heq
        · refine Or.inr ⟨m + 1, by simpa using hm, ?_, ?_, ?_, ?_⟩
          · rw [h1]; congr 1; omega
          · simpa using h2
          · exact h3
          · intro m2 hm2
            cases m2 with
            | zero => simpa using scoreLt_of_lt_of_le h3 (scoreLe_of_not_lt h)
            | succ m3 =>
              simp only [List.getD_cons_succ]
              exact h4 m3 (by omega)

/-! ### Indexing helpers -/

theorem getElem?_drop_add : ∀ (l : List α) (i j : Nat), (l.drop i)[j]? = l[i + j]?
  | _, 0, _ => by simp
  | [], _ + 1, _ => by simp
  | _ :: t, i + 1, j => by
    rw [List.drop_succ_cons, getElem?_drop_add t i j]
    have : i + 1 + j = (i + j) + 1 := by omega
    rw [this, List.getElem?_cons_succ]

theorem chain_scores_getD (d : α → α → ℚ) (x : α) (l : List α) (i m : Nat)
    (hm : i + 1 + m < l.length) :
    ((l.drop (i + 1)).map (fun y => some (d x y))).getD m none =
      some (d x (l.getD (i + 1 + m) x)) := by
  have h1 : ((l.drop (i + 1)).map (fun y => some (d x y)))[m]? =
      Option.map (fun y => some (d x y)) l[i + 1 + m]? := by
    rw [List.getElem?_map, getElem?_drop_add]
  have h2 : l[i + 1 + m]? = some l[i + 1 + m] := List.getElem?_eq_getElem hm
  rw [List.getD_eq_getElem?_getD, h1, h2, List.getD_eq_getElem?_getD, h2]
  rfl

theorem chain_scores_length (d : α → α → ℚ) (x : α) (l : List α) (i : Nat) :
    ((l.drop (i + 1)).map (fun y => some (d x y))).length = l.length - (i + 1) := by
  rw [List.length_map, List.length_drop]

/-! ### Bounds and minimality of the chain-sort selection -/

theorem chain_sel_ge (d : α → α → ℚ) (x : α) (l : List α) (i : Nat) :
    i + 1 ≤ chain_sel d x l i := by
  unfold chain_sel
  rcases (best_scan_spec ((l.drop (i + 1)).map (fun y => some (d x y))) (i + 1)
      (((i + 1 : Nat) : Int), none)).2.2 with heq | ⟨m, _, h1, _⟩
  · rw [heq]
    simp
  · rw [h1]
    omega

theorem chain_sel_found (d : α → α → ℚ) (x : α) (l : List α) (i : Nat)
    (hi : i + 1 < l.length) :
    ∃ m, m < l.length - (i + 1) ∧ chain_sel d x l i = i + 1 + m ∧
      (best_scan ((l.drop (i + 1)).map (fun y => some (d x y))) (i + 1)
        (((i + 1 : Nat) : Int), none)).2 = some (d x (l.getD (i + 1 + m) x)) := by
  obtain ⟨sp1, sp2, sp3⟩ := best_scan_spec ((l.drop (i + 1)).map (fun y => some (d x y)))
    (i + 1) (((i + 1 : Nat) : Int), none)
  have hlen : 0 < ((l.drop (i + 1)).map (fun y => some (d x y))).length := by
    rw [chain_scores_length]
    omega
  rcases sp3 with heq | ⟨m, hm, h1, h2, _, _⟩
  · exfalso
    have h0 := sp2 0 hlen
    rw [heq] at h0
    have := scoreLe_none h0
    rw [chain_scores_getD d x l i 0 (by omega)] at this
    simp at this
  · rw [chain_scores_length] at hm
    refine ⟨m, hm, ?_, ?_⟩
    · unfold chain_sel
      rw [h1]
      omega
    · rw [h2, chain_scores_getD d x l i m (by omega)]

theorem chain_sel_lt (d : α → α → ℚ) (x : α) (l : List α) (i : Nat)
    (hi : i + 1 < l.length) : chain_sel d x l i < l.length := by
  obtain ⟨m, hm, hsel, _⟩ := chain_sel_found d x l i hi
  omega

theorem chain_sel_min (d : α → α → ℚ) (x : α) (l : List α) (i : Nat)
    (hi : i + 1 < l.length) :
    (∀ j, i + 1 ≤ j → j < l.length →
      d x (l.getD (chain_sel d x l i) x) ≤ d x (l.getD j x)) ∧
    (∀ j, i + 1 ≤ j → j < chain_sel d x l i →
      d x (l.getD (chain_sel d x l i) x) < d x (l.getD j x)) := by
  obtain ⟨sp1, sp2, sp3⟩ := best_scan_spec ((l.drop (i + 1)).map (fun y => some (d x y)))
    (i + 1) (((i + 1 : Nat) : Int), none)
  obtain ⟨m, hm, hsel, hval⟩ := chain_sel_found d x l i hi
  constructor
  · intro j hj1 hj2
    have h2 := sp2 (j - (i + 1)) (by rw [chain_scores_length]; omega)
    rw [hval, chain_scores_getD d x l i (j - (i + 1)) (by omega)] at h2
    have hj : i + 1 + (j - (i + 1)) = j := by omega
    rw [hj] at h2
    rw [hsel]
    exact h2
  · intro j hj1 hj2
    rcases sp3 with heq | ⟨m2, hm2, h1, h2, _, h4⟩
    · exfalso
      rw [heq] at hval
      simp at hval
    · have hmm : m2 = m := by
        unfold chain_sel at hsel
        rw [h1] at hsel
        omega
      subst hmm
      have h5 := h4 (j - (i + 1)) (by omega)
      rw [hval, chain_scores_getD d x l i (j - (i + 1)) (by omega)] at h5
      have hj : i + 1 + (j - (i + 1)) = j := by omega
      rw [hj] at h5
      rw [hsel]
      simpa [scoreLt] using h5

/-! ### Swaps are permutations and preserve the head -/

theorem set_cons_perm : ∀ (xs : List α) (m : Nat) (b x : α), xs[m]? = some b →
    List.Perm (b :: xs.set m x) (x :: xs)
  | [], m, b, x => by simp
  | c :: t, 0, b, x => by
    intro h
    simp at h
    subst h
    simp only [List.set_cons_zero]
    exact List.Perm.swap x c t
  | c :: t, m + 1, b, x => by
    intro h
    rw [List.getElem?_cons_succ] at h
    have ih := set_cons_perm t m b x h
    have e1 : b :: (c :: t).set (m + 1) x = b :: c :: t.set m x := by simp
    rw [e1]
    exact List.Perm.trans (List.Perm.swap c b (t.set m x))
      (List.Perm.trans (List.Perm.cons c ih) (List.Perm.swap x c t))

theorem swap_items_perm : ∀ (l : List α) (a b : Nat), List.Perm (swap_items l a b) l
  | [], _, _ => by simp [swap_items]
  | c :: t, 0, 0 => by simp [swap_items]
  | c :: t, 0, m + 1 => by
    unfold swap_items
    rw [List.getElem?_cons_zero]
    cases hy : (c :: t)[m + 1]? with
    | none => exact List.Perm.refl _
    | some y =>
      rw [List.getElem?_cons_succ] at hy
      show List.Perm (((c :: t).set 0 y).set (m + 1) c) (c :: t)
      have hset : ((c :: t).set 0 y).set (m + 1) c = y :: t.set m c := by simp
      rw [hset]
      exact set_cons_perm t m y c hy
  | c :: t, m + 1, 0 => by
    unfold swap_items
    rw [List.getElem?_cons_zero]
    cases hx : (c :: t)[m + 1]? with
    | none => exact List.Perm.refl _
    | some x =>
      rw [List.getElem?_cons_succ] at hx
      show List.Perm (((c :: t).set (m + 1) c).set 0 x) (c :: t)
      have hset : ((c :: t).set (m + 1) c).set 0 x = x :: t.set m c := by simp
      rw [hset]
      exact set_cons_perm t m x c hx
  | c :: t, a + 1, b + 1 => by
    unfold swap_items
    cases hx : (c :: t)[a + 1]? with
    | none => exact List.Perm.refl _
    | some x =>
      cases hy : (c :: t)[b + 1]? with
      | none => exact List.Perm.refl _
      | some y =>
        show List.Perm (((c :: t).set (a + 1) y).set (b + 1) x) (c :: t)
        rw [List.getElem?_cons_succ] at hx hy
        have h1 : ((c :: t).set (a + 1) y).set (b + 1) x = c :: (t.set a y).set b x := by
          simp
        rw [h1]
        have h2 : (t.set a y).set b x = swap_items t a b := by
          unfold swap_items
          rw [hx, hy]
        rw [h2]
        exact List.Perm.cons c (swap_items_perm t a b)

theorem swap_items_zero (l : List α) (a b : Nat) (ha : 1 ≤ a) (hb : 1 ≤ b) :
    (swap_items l a b)[0]? = l[0]? := by
  unfold swap_items
  cases hx : l[a]? with
  | none => rfl
  | some x =>
    cases hy : l[b]? with
    | none => rfl
    | some y =>
      rw [List.getElem?_set_ne (by omega), List.getElem?_set_ne (by omega)]

theorem chain_step_perm (d : α → α → ℚ) (l : List α) (i : Nat) :
    List.Perm (chain_step d l i) l := by
  unfold chain_step
  cases l[i]? with
  | none => exact List.Perm.refl _
  | some x => exact swap_items_perm l (i + 1) (chain_sel d x l i)

theorem chain_step_zero (d : α → α → ℚ) (l : List α) (i : Nat) :
    (chain_step d l i)[0]? = l[0]? := by
  unfold chain_step
  cases hx : l[i]? with
  | none => rfl
  | some x =>
    exact swap_items_zero l (i + 1) (chain_sel d x l i) (by omega)
      (by have := chain_sel_ge d x l i; omega)

theorem chain_from_perm (d : α → α → ℚ) :
    ∀ (steps : Nat) (l : List α) (i : Nat), List.Perm (chain_from d l i steps) l
  | 0, _, _ => List.Perm.refl _
  | steps + 1, l, i =>
    List.Perm.trans (chain_from_perm d steps (chain_step d l i) (i + 1))
      (chain_step_perm d l i)

theorem chain_from_zero (d : α → α → ℚ) :
    ∀ (steps : Nat) (l : List α) (i : Nat), (chain_from d l i steps)[0]? = l[0]?
  | 0, _, _ => rfl
  | steps + 1, l, i => by
    rw [show chain_from d l i (steps + 1) = chain_from d (chain_step d l i) (i + 1) steps
      from rfl]
    rw [chain_from_zero d steps (chain_step d l i) (i + 1), chain_step_zero]

theorem chain_sort_perm (d : α → α → ℚ) (l : List α) :
    List.Perm (chain_sort d l) l := chain_from_perm d (l.length - 1) l 0

theorem chain_sort_zero (d : α → α → ℚ) (l : List α) :
    (chain_sort d l)[0]? = l[0]? := chain_from_zero d (l.length - 1) l 0

/-! ### Claim C6 -/

/-- C6: Chain-Sort (greedy nearest-neighbor chaining) is deterministic and
fixes the first element as the input first item.  For any position i with a
successor range, the selected index lies in i+1 .. n-1, attains the minimum
distance to the item at i over that range, is the earliest such index
(every earlier candidate has a strictly larger distance, because the scan
updates only on strict improvement), and the step swaps positions i+1 and
the selected index.  Determinism is witnessed by the output being a
function of the fingerprints and the input order alone. -/
theorem claim_C6_chain_sort_greedy (α : Type) (d : α → α → ℚ) (l : List α) :
    (chain_sort d l)[0]? = l[0]? ∧
    (∀ l2 : List α, l2 = l → chain_sort d l2 = chain_sort d l) ∧
    (∀ i x, l[i]? = some x →
      chain_step d l i = swap_items l (i + 1) (chain_sel d x l i) ∧
      i + 1 ≤ chain_sel d x l i ∧
      (i + 1 < l.length →
        chain_sel d x l i < l.length ∧
        (∀ j, i + 1 ≤ j → j < l.length →
          d x (l.getD (chain_sel d x l i) x) ≤ d x (l.getD j x)) ∧
        (∀ j, i + 1 ≤ j → j < chain_sel d x l i →
          d x (l.getD (chain_sel d x l i) x) < d x (l.getD j x)))) := by
  refine ⟨chain_sort_zero d l, fun l2 h => by rw [h], ?_⟩
  intro i x hx
  refine ⟨?_, chain_sel_ge d x l i, ?_⟩
  · unfold chain_step
    rw [hx]
  · intro hi
    exact ⟨chain_sel_lt d x l i hi, (chain_sel_min d x l i hi).1,
      (chain_sel_min d x l i hi).2⟩

/-- Witness for C6 at a concrete input: the input 0, 3, 1 with the absolute
difference distance; the step at i = 0 selects index 2 (the value 1 is the
nearest neighbour of 0) and the output starts with the input head. -/
theorem claim_C6_witness :
    (chain_step (fun a b : ℚ => |a - b|) [0, 3, 1] 0 =
      swap_items [(0 : ℚ), 3, 1] 1 (chain_sel (fun a b : ℚ => |a - b|) 0 [0, 3, 1] 0)) ∧
    (chain_sort (fun a b : ℚ => |a - b|) [0, 3, 1])[0]? = ([(0 : ℚ), 3, 1])[0]? ∧
    chain_sel (fun a b : ℚ => |a - b|) 0 [(0 : ℚ), 3, 1] 0 = 2 := by
  have h := claim_C6_chain_sort_greedy ℚ (fun a b => |a - b|) [0, 3, 1]
  exact ⟨(h.2.2 0 0 (by decide)).1, h.1, by decide⟩

/-! ### Claim C8 -/

/-- C8: for every input list, each of the three Sequencer ordering
policies returns a permutation of the input items: the scalar key sort
(sort_blur and its kin), the greedy chain sort (sort_face_cnn, sort_hist),
and the total-dissimilarity sort (sort_face_cnn_dissim, whose output
carries the computed score in the third component, so the items are the
identifier and fingerprint components). -/
theorem claim_C8_sequencer_permutation :
    (∀ l : List (String × ℚ), List.Perm (sort_blur l) l) ∧
    (∀ (α : Type) (d : α → α → ℚ) (l : List α), List.Perm (chain_sort d l) l) ∧
    (∀ l : List (String × Lmk),
      List.Perm ((sort_face_cnn_dissim l).map (fun t => (t.1, t.2.1))) l) := by
  refine ⟨?_, ?_, ?_⟩
  · intro l
    exact List.mergeSort_perm l _
  · intro α d l
    exact chain_sort_perm d l
  · intro l
    have h1 := List.mergeSort_perm (l.enum.map (fun p =>
      (p.2.1, p.2.2, dissim_total (fun a b => cnn_score a.2 b.2) l p.2 p.1)))
      (fun a b => decide (b.2.2 ≤ a.2.2))
    have h2 := h1.map (fun t : String × Lmk × ℚ => (t.1, t.2.1))
    unfold sort_face_cnn_dissim
    refine h2.trans ?_
    rw [List.map_map]
    have h3 : ((fun t : String × Lmk × ℚ => (t.1, t.2.1)) ∘
        (fun p : Nat × (String × Lmk) =>
          (p.2.1, p.2.2, dissim_total (fun a b => cnn_score a.2 b.2) l p.2 p.1))) =
        Prod.snd := by
      funext p
      rfl
    rw [h3]
    have h4 : l.enum.map Prod.snd = l := List.enumFrom_map_snd 0 l
    rw [h4]

/-! ### Equal-split binning: structure of the produced bins -/

theorem distribute_length (l : List (String × ℚ)) (q : Nat) :
    ∀ (m idx : Nat), (distribute l q idx m).length = m
  | 0, _ => rfl
  | m + 1, idx => by
    rw [show distribute l q idx (m + 1) = fill_bin l idx q :: distribute l q (idx + q) m
      from rfl]
    rw [List.length_cons, distribute_length l q m (idx + q)]

theorem distribute_getD (l : List (String × ℚ)) (q : Nat) :
    ∀ (m idx i : Nat), i < m →
      (distribute l q idx m).getD i [] = fill_bin l (idx + i * q) q
  | 0, _, i, hi => by omega
  | m + 1, idx, 0, _ => by simp [distribute]
  | m + 1, idx, i + 1, hi => by
    rw [show distribute l q idx (m + 1) = fill_bin l idx q :: distribute l q (idx + q) m
      from rfl]
    rw [List.getD_cons_succ, distribute_getD l q m (idx + q) i (by omega)]
    congr 1
    ring

theorem fill_bin_length (l : List (String × ℚ)) (idx q : Nat)
    (h : idx + q ≤ l.length) : (fill_bin l idx q).length = q := by
  unfold fill_bin
  rw [List.length_map, List.length_take, List.length_drop]
  omega

theorem fill_bin_getD (l : List (String × ℚ)) (idx q k : Nat) (hk : k < q)
    (h : idx + k < l.length) :
    (fill_bin l idx q).getD k "" = (l.getD (idx + k) ("", 0)).1 := by
  unfold fill_bin
  have h1 : (((l.drop idx).take q).map Prod.fst)[k]? =
      Option.map Prod.fst ((l.drop idx).take q)[k]? := List.getElem?_map _ _ _
  rw [List.getD_eq_getElem?_getD, h1, List.getElem?_take_of_lt hk, getElem?_drop_add,
    List.getElem?_eq_getElem h, List.getD_eq_getElem?_getD, List.getElem?_eq_getElem h]
  rfl

theorem tail_pick_length (l : List (String × ℚ)) :
    ∀ (m i : Nat), (tail_pick l i m).length = m
  | 0, _ => rfl
  | m + 1, i => by
    rw [show tail_pick l i (m + 1) =
      (l.getD (l.length - i) ("", 0)).1 :: tail_pick l (i + 1) m from rfl]
    rw [List.length_cons, tail_pick_length l m (i + 1)]

theorem tail_pick_getD (l : List (String × ℚ)) :
    ∀ (m i j : Nat), j < m →
      (tail_pick l i m).getD j "" = (l.getD (l.length - (i + j)) ("", 0)).1
  | 0, _, j, hj => by omega
  | m + 1, i, 0, _ => by simp [tail_pick]
  | m + 1, i, j + 1, hj => by
    rw [show tail_pick l i (m + 1) =
      (l.getD (l.length - i) ("", 0)).1 :: tail_pick l (i + 1) m from rfl]
    rw [List.getD_cons_succ, tail_pick_getD l m (i + 1) j (by omega)]
    congr 2
    omega

theorem getD_append_left {α : Type} (A B : List α) (d : α) (i : Nat)
    (hi : i < A.length) : (A ++ B).getD i d = A.getD i d := by
  rw [List.getD_eq_getElem?_getD, List.getElem?_append_left hi,
    ← List.getD_eq_getElem?_getD]

theorem getD_append_right {α : Type} (A B : List α) (d : α) (j : Nat) :
    (A ++ B).getD (A.length + j) d = B.getD j d := by
  rw [List.getD_eq_getElem?_getD, List.getElem?_append_right (by omega)]
  rw [show A.length + j - A.length = j from by omega, ← List.getD_eq_getElem?_getD]

theorem append_last_length (bins : List (List String)) (extra : List String)
    (hb : bins ≠ []) : (append_last bins extra).length = bins.length := by
  unfold append_last
  rw [List.length_append, List.length_dropLast]
  have := List.length_pos.mpr hb
  simp
  omega

theorem append_last_getD_front (bins : List (List String)) (extra : List String)
    (i : Nat) (hi : i + 1 < bins.length) :
    (append_last bins extra).getD i [] = bins.getD i [] := by
  unfold append_last
  rw [getD_append_left _ _ _ i (by rw [List.length_dropLast]; omega)]
  rw [List.getD_eq_getElem?_getD, List.getElem?_dropLast, if_pos (by omega),
    ← List.getD_eq_getElem?_getD]

theorem append_last_getD_last (bins : List (List String)) (extra : List String)
    (hb : bins ≠ []) :
    (append_last bins extra).getD (bins.length - 1) [] = bins.getLastD [] ++ extra := by
  unfold append_last
  have hlen := List.length_pos.mpr hb
  have h1 : bins.length - 1 = bins.dropLast.length + 0 := by
    rw [List.length_dropLast]
    omega
  rw [h1, getD_append_right, List.getD_cons_zero]

/-- C5: equal-split binning with q and r the quotient and remainder of the
item count by num_bins: the produced bins list has num_bins bins; every bin
except possibly the last has exactly q items; bin i holds, at position k
below q, the filename of the input item at position i * q + k (so the first
n - r items are placed contiguously, q per bin, across all bins in order);
and the last bin additionally carries r trailing items, the one at offset
q + j being the input item at position n - 1 - j, i.e. the trailing items
of the full sequence appended in reverse positional order. -/
theorem claim_C5_equal_split_binning (num_bins : Nat) (l : List (String × ℚ))
    (h : 1 ≤ num_bins) :
    ∃ B, group_blur num_bins l = some B ∧
      B.length = num_bins ∧
      (∀ i, i + 1 < num_bins → (B.getD i []).length = l.length / num_bins) ∧
      (B.getD (num_bins - 1) []).length =
        l.length / num_bins + l.length % num_bins ∧
      (∀ i k, i < num_bins → k < l.length / num_bins →
        (B.getD i []).getD k "" =
          (l.getD (i * (l.length / num_bins) + k) ("", 0)).1) ∧
      (∀ j, j < l.length % num_bins →
        (B.getD (num_bins - 1) []).getD (l.length / num_bins + j) "" =
          (l.getD (l.length - 1 - j) ("", 0)).1) := by
  set n := l.length with hn
  set q := n / num_bins with hq
  set r := n % num_bins with hr
  have hqr : num_bins * q + r = n := Nat.div_add_mod n num_bins
  have hrlt : r < num_bins := Nat.mod_lt n (by omega)
  have hD : (distribute l q 0 num_bins).length = num_bins := distribute_length l q _ _
  have hDne : distribute l q 0 num_bins ≠ [] := by
    intro hcon
    rw [hcon] at hD
    simp at hD
    omega
  have hlast : (distribute l q 0 num_bins).getLastD [] =
      fill_bin l ((num_bins - 1) * q) q := by
    rw [List.getLastD_eq_getLast?, List.getLast?_eq_getElem?, hD,
      ← List.getD_eq_getElem?_getD _ _ []]
    rw [distribute_getD l q num_bins 0 (num_bins - 1) (by omega)]
    rw [Nat.zero_add]
  have hmul : ∀ i : Nat, i + 1 ≤ num_bins → i * q + q ≤ n := by
    intro i hi
    have h1 : i * q + q = (i + 1) * q := by ring
    have h2 : (i + 1) * q ≤ num_bins * q := Nat.mul_le_mul_right q hi
    omega
  have hfill_last_len : (fill_bin l ((num_bins - 1) * q) q).length = q := by
    apply fill_bin_length
    exact hmul (num_bins - 1) (by omega)
  have hlastD := append_last_getD_last (distribute l q 0 num_bins) (tail_pick l 1 r) hDne
  rw [hD] at hlastD
  refine ⟨append_last (distribute l q 0 num_bins) (tail_pick l 1 r),
    by rw [group_blur, if_neg (by omega)], ?_, ?_, ?_, ?_, ?_⟩
  · rw [append_last_length _ _ hDne, hD]
  · intro i hi
    rw [append_last_getD_front _ _ i (by rw [hD]; omega),
      distribute_getD l q num_bins 0 i (by omega), Nat.zero_add]
    exact fill_bin_length l (i * q) q (hmul i (by omega))
  · rw [hlastD, List.length_append, hlast, hfill_last_len, tail_pick_length]
  · intro i k hi hk
    by_cases hilast : i + 1 < num_bins
    · rw [append_last_getD_front _ _ i (by rw [hD]; omega),
        distribute_getD l q num_bins 0 i (by omega), Nat.zero_add]
      apply fill_bin_getD l (i * q) q k hk
      have := hmul i (by omega)
      omega
    · have hieq : i = num_bins - 1 := by omega
      subst hieq
      rw [hlastD, hlast, getD_append_left _ _ _ k (by rw [hfill_last_len]; omega)]
      apply fill_bin_getD l ((num_bins - 1) * q) q k hk
      have := hmul (num_bins - 1) (by omega)
      omega
  · intro j hj
    rw [hlastD, hlast]
    rw [show q + j = (fill_bin l ((num_bins - 1) * q) q).length + j from by
      rw [hfill_last_len]]
    rw [getD_append_right, tail_pick_getD l r 1 j hj]
    congr 2
    omega

/-- Witness for C5 at the instance of the claim: ten items into three
bins gives sizes three, three and four, the bins holding consecutive
runs and the remainder being the last sequence item; an eleven item run
shows the two remainder items in reverse positional order. -/
theorem claim_C5_witness :
    group_blur 3 [("a", (1 : ℚ)), ("b", 2), ("c", 3), ("d", 4), ("e", 5),
        ("f", 6), ("g", 7), ("h", 8), ("i", 9), ("j", 10)] =
      some [["a", "b", "c"], ["d", "e", "f"], ["g", "h", "i", "j"]] ∧
    group_blur 3 [("a", (1 : ℚ)), ("b", 2), ("c", 3), ("d", 4), ("e", 5),
        ("f", 6), ("g", 7), ("h", 8), ("i", 9), ("j", 10), ("k", 11)] =
      some [["a", "b", "c"], ["d", "e", "f"], ["g", "h", "i", "k", "j"]] ∧
    (∃ B, group_blur 3 [("a", (1 : ℚ)), ("b", 2), ("c", 3), ("d", 4), ("e", 5),
        ("f", 6), ("g", 7), ("h", 8), ("i", 9), ("j", 10)] = some B ∧
      B.length = 3 ∧ (B.getD 2 []).length = 3 + 1) := by
  refine ⟨by decide, by decide, ?_⟩
  obtain ⟨B, h1, h2, -, h4, -, -⟩ :=
    claim_C5_equal_split_binning 3 [("a", (1 : ℚ)), ("b", 2), ("c", 3), ("d", 4),
      ("e", 5), ("f", 6), ("g", 7), ("h", 8), ("i", 9), ("j", 10)] (by omega)
  exact ⟨B, h1, h2, h4⟩

/-! ### Threshold-edge binning: digitize against sorted edges -/

theorem digitize_spec (v : ℚ) : ∀ (edges : List Nat), edges.Pairwise (· ≤ ·) →
    digitize v edges ≤ edges.length ∧
    (∀ j, j < digitize v edges → (((edges.getD j 0 : Nat) : ℚ) < v)) ∧
    (digitize v edges < edges.length →
      v ≤ ((edges.getD (digitize v edges) 0 : Nat) : ℚ))
  | [], _ => by
    refine ⟨by simp [digitize], ?_, ?_⟩
    · intro j hj
      simp [digitize] at hj
    · intro hlt
      simp [digitize] at hlt
  | e :: rest, hp => by
    rw [List.pairwise_cons] at hp
    obtain ⟨hhead, hrest⟩ := hp
    obtain ⟨ih1, ih2, ih3⟩ := digitize_spec v rest hrest
    by_cases he : ((e : Nat) : ℚ) < v
    · have hcount : digitize v (e :: rest) = digitize v rest + 1 := by
        unfold digitize
        rw [List.countP_cons]
        simp [he]
      refine ⟨by rw [hcount]; simp; omega, ?_, ?_⟩
      · intro j hj
        cases j with
        | zero => simpa using he
        | succ j2 =>
          rw [List.getD_cons_succ]
          exact ih2 j2 (by omega)
      · intro hlt
        rw [hcount] at hlt ⊢
        rw [List.getD_cons_succ]
        exact ih3 (by simpa using hlt)
    · have hrest0 : digitize v rest = 0 := by
        unfold digitize
        rw [List.countP_eq_zero]
        intro a ha
        have h1 : e ≤ a := hhead a ha
        have h2 : ((e : Nat) : ℚ) ≤ ((a : Nat) : ℚ) := by
          exact_mod_cast h1
        simp only [decide_eq_true_eq]
        intro hav
        exact he (lt_of_le_of_lt h2 hav)
      have hcount : digitize v (e :: rest) = 0 := by
        unfold digitize
        rw [List.countP_cons]
        unfold digitize at hrest0
        rw [hrest0]
        simp [he]
      refine ⟨by rw [hcount]; simp, ?_, ?_⟩
      · intro j hj
        omega
      · intro _
        rw [hcount, List.getD_cons_zero]
        exact le_of_not_lt he

theorem pairwise_getD_le (edges : List Nat) (hp : edges.Pairwise (· ≤ ·))
    (i j : Nat) (hij : i ≤ j) (hj : j < edges.length) :
    edges.getD i 0 ≤ edges.getD j 0 := by
  rcases Nat.lt_or_ge i j with hlt | hge
  · rw [List.pairwise_iff_getElem] at hp
    have := hp i j (by omega) hj hlt
    rw [List.getD_eq_getElem?_getD, List.getD_eq_getElem?_getD,
      List.getElem?_eq_getElem (by omega : i < edges.length),
      List.getElem?_eq_getElem hj]
    simpa using this
  · have : i = j := by omega
    rw [this]

theorem cumsum_pairwise : ∀ (s : List Nat) (acc : Nat),
    (cumsum acc s).Pairwise (· ≤ ·) ∧ ∀ x ∈ cumsum acc s, acc ≤ x
  | [], _ => by simp [cumsum]
  | s0 :: rest, acc => by
    obtain ⟨ih1, ih2⟩ := cumsum_pairwise rest (acc + s0)
    rw [show cumsum acc (s0 :: rest) = (acc + s0) :: cumsum (acc + s0) rest from rfl]
    refine ⟨List.pairwise_cons.mpr ⟨fun x hx => ih2 x hx, ih1⟩, ?_⟩
    intro x hx
    rw [List.mem_cons] at hx
    rcases hx with h | h
    · omega
    · have := ih2 x h
      omega

theorem cumsum_length : ∀ (s : List Nat) (acc : Nat), (cumsum acc s).length = s.length
  | [], _ => rfl
  | s0 :: rest, acc => by
    rw [show cumsum acc (s0 :: rest) = (acc + s0) :: cumsum (acc + s0) rest from rfl]
    rw [List.length_cons, List.length_cons, cumsum_length rest (acc + s0)]

theorem cumsum_getD_last : ∀ (s : List Nat) (acc : Nat), s ≠ [] →
    (cumsum acc s).getD (s.length - 1) 0 = acc + s.sum
  | [], _, hne => absurd rfl hne
  | [x], acc, _ => by simp [cumsum]
  | x :: y :: rest, acc, _ => by
    rw [show cumsum acc (x :: y :: rest) =
      (acc + x) :: cumsum (acc + x) (y :: rest) from rfl]
    rw [show (x :: y :: rest).length - 1 = (y :: rest).length - 1 + 1 from by
      simp]
    rw [List.getD_cons_succ, cumsum_getD_last (y :: rest) (acc + x) (by simp)]
    simp only [List.sum_cons]
    omega

theorem near_split_pairwise (bin_range num_bins : Nat) :
    (near_split bin_range num_bins).Pairwise (· ≤ ·) := by
  unfold near_split
  refine List.pairwise_cons.mpr ⟨?_, (cumsum_pairwise _ 0).1⟩
  intro x hx
  omega

theorem near_split_length (bin_range num_bins : Nat) (h : 1 ≤ num_bins) :
    (near_split bin_range num_bins).length = num_bins + 1 := by
  unfold near_split
  rw [List.length_cons, cumsum_length, List.length_append,
    List.length_replicate, List.length_replicate]
  have : bin_range % num_bins < num_bins := Nat.mod_lt bin_range (by omega)
  omega

theorem near_split_last (bin_range num_bins : Nat) (h : 1 ≤ num_bins) :
    (near_split bin_range num_bins).getD num_bins 0 = bin_range := by
  obtain ⟨m, hm⟩ : ∃ m, num_bins = m + 1 := ⟨num_bins - 1, by omega⟩
  subst hm
  unfold near_split
  rw [List.getD_cons_succ]
  have hr : bin_range % (m + 1) < m + 1 := Nat.mod_lt bin_range (by omega)
  have hlen : (List.replicate (bin_range % (m + 1)) (bin_range / (m + 1) + 1) ++
      List.replicate (m + 1 - bin_range % (m + 1)) (bin_range / (m + 1))).length =
      m + 1 := by
    rw [List.length_append, List.length_replicate, List.length_replicate]
    omega
  have hne : (List.replicate (bin_range % (m + 1)) (bin_range / (m + 1) + 1) ++
      List.replicate (m + 1 - bin_range % (m + 1)) (bin_range / (m + 1))) ≠ [] := by
    intro hcon
    rw [hcon] at hlen
    simp at hlen
  have hcg := cumsum_getD_last (List.replicate (bin_range % (m + 1))
    (bin_range / (m + 1) + 1) ++
    List.replicate (m + 1 - bin_range % (m + 1)) (bin_range / (m + 1))) 0 hne
  rw [hlen] at hcg
  simp only [Nat.add_sub_cancel] at hcg
  rw [hcg, Nat.zero_add, List.sum_append, List.sum_const_nat, List.sum_const_nat]
  have h1 : bin_range % (m + 1) ≤ m + 1 := by omega
  have h2 : (m + 1) * (bin_range / (m + 1)) + bin_range % (m + 1) = bin_range :=
    Nat.div_add_mod bin_range (m + 1)
  calc bin_range % (m + 1) * (bin_range / (m + 1) + 1) +
        (m + 1 - bin_range % (m + 1)) * (bin_range / (m + 1))
      = (bin_range % (m + 1) + (m + 1 - bin_range % (m + 1))) *
          (bin_range / (m + 1)) + bin_range % (m + 1) := by ring
    _ = (m + 1) * (bin_range / (m + 1)) + bin_range % (m + 1) := by
        rw [Nat.add_sub_cancel' h1]
    _ = bin_range := h2

/-! ### The placement loop of group_black_pixels -/

theorem append_at_length (bins : List (List String)) (k : Nat) (fid : String) :
    (append_at bins k fid).length = bins.length := by
  unfold append_at
  rw [List.length_set]

theorem place_all_none : ∀ (items : List (String × Nat)) (bins : List (List String)),
    (∃ p ∈ items, bins.length ≤ p.2) → place_all bins items = none
  | [], bins, hex => by
    obtain ⟨p, hp, _⟩ := hex
    simp at hp
  | (fid, k) :: rest, bins, hex => by
    rw [show place_all bins ((fid, k) :: rest) =
      (if k < bins.length then place_all (append_at bins k fid) rest else none)
      from rfl]
    by_cases hk : k < bins.length
    · rw [if_pos hk]
      obtain ⟨p, hp, hple⟩ := hex
      rw [List.mem_cons] at hp
      rcases hp with h | h
      · exfalso
        rw [h] at hple
        simp at hple
        omega
      · exact place_all_none rest (append_at bins k fid)
          ⟨p, h, by rw [append_at_length]; exact hple⟩
    · rw [if_neg hk]

theorem place_all_some : ∀ (items : List (String × Nat)) (bins : List (List String))
    (b : List (List String)), place_all bins items = some b →
    ∀ p ∈ items, p.2 < bins.length
  | [], _, _, _ => by simp
  | (fid, k) :: rest, bins, b, hsome => by
    rw [show place_all bins ((fid, k) :: rest) =
      (if k < bins.length then place_all (append_at bins k fid) rest else none)
      from rfl] at hsome
    by_cases hk : k < bins.length
    · rw [if_pos hk] at hsome
      intro p hp
      rw [List.mem_cons] at hp
      rcases hp with h | h
      · rw [h]
        exact hk
      · have := place_all_some rest (append_at bins k fid) b hsome p h
        rw [append_at_length] at this
        exact this
    · rw [if_neg hk] at hsome
      exact absurd hsome (by simp)

/-! ### Claim C4 -/

/-- C4 counterexample: the claim asserts that the value 24.999 is assigned
bin index 0, but the right-closed digitize convention puts every value in
(0, 25] into bin index 1: on the single item with value 24.999 the second
bin receives the item and the first stays empty, and the digitize index is
not 0. -/
theorem claim_C4_counterexample :
    group_black_pixels 4 [("x", (24999 : ℚ) / 1000)] = some [[], ["x"], [], []] ∧
    digitize ((24999 : ℚ) / 1000) (near_split 100 4) ≠ 0 :=
  ⟨by decide, by decide⟩

/-- C4 (amended): threshold-edge binning over the closed range 0..100 with
num_bins = 4 computes the edges 0, 25, 50, 75, 100 and assigns each value
at most 100 to the smallest index k with edges k at least the value (every
edge strictly before the assigned index is strictly below the value and
the edge at the assigned index reaches it); a value of exactly 25.0 is
assigned bin index 1, and 24.999 is assigned bin index 1 as well, bin 0
holding only values at most 0. -/
theorem claim_C4_threshold_edge_binning (v : ℚ) (hv : v ≤ 100) :
    near_split 100 4 = [0, 25, 50, 75, 100] ∧
    (∀ j, j < digitize v (near_split 100 4) →
      (((near_split 100 4).getD j 0 : Nat) : ℚ) < v) ∧
    v ≤ (((near_split 100 4).getD (digitize v (near_split 100 4)) 0 : Nat) : ℚ) ∧
    digitize (25 : ℚ) (near_split 100 4) = 1 ∧
    digitize ((24999 : ℚ) / 1000) (near_split 100 4) = 1 ∧
    group_black_pixels 4 [("x", (25 : ℚ))] = some [[], ["x"], [], []] := by
  have hp := near_split_pairwise 100 4
  obtain ⟨hs1, hs2, hs3⟩ := digitize_spec v (near_split 100 4) hp
  have hlen : (near_split 100 4).length = 5 := by decide
  have hlast : (near_split 100 4).getD 4 0 = 100 := by decide
  have hdlt : digitize v (near_split 100 4) < 5 := by
    by_contra hcon
    push_neg at hcon
    have h100 := hs2 4 (by omega)
    rw [hlast] at h100
    have hlt : (100 : ℚ) < v := by exact_mod_cast h100
    linarith
  refine ⟨by decide, hs2, ?_, by decide, by decide, by decide⟩
  exact hs3 (by omega)

/-- Witness for C4 at the value 24.999: the hypothesis holds and the
assigned edge reaches the value. -/
theorem claim_C4_witness :
    ((24999 : ℚ) / 1000 ≤ 100) ∧
    (24999 : ℚ) / 1000 ≤ (((near_split 100 4).getD
      (digitize ((24999 : ℚ) / 1000) (near_split 100 4)) 0 : Nat) : ℚ) := by
  have h := claim_C4_threshold_edge_binning ((24999 : ℚ) / 1000) (by norm_num)
  exact ⟨by norm_num, h.2.2.1⟩

/-! ### Claim C10 -/

/-- C10: in threshold-edge binning over 0..100, any value strictly above
the second-to-last edge and at most 100 is assigned index num_bins by the
right-closed digitize step, which is out of range for the num_bins-element
bins list: for any input list containing such a value the embedded
group_black_pixels returns none (the IndexError branch of the placement
loop is reachable), and whenever placement succeeds every value is at most
the second-to-last edge (or, redundantly, equal to an in-range edge). -/
theorem claim_C10_out_of_range_digitize (num_bins : Nat) (h : 1 ≤ num_bins)
    (v : ℚ)
    (hv1 : (((near_split 100 num_bins).getD (num_bins - 1) 0 : Nat) : ℚ) < v)
    (hv2 : v ≤ 100) :
    digitize v (near_split 100 num_bins) = num_bins ∧
    (∀ l : List (String × ℚ), (∃ fid, (fid, v) ∈ l) →
      group_black_pixels num_bins l = none) ∧
    (∀ (l : List (String × ℚ)) (b : List (List String)),
      group_black_pixels num_bins l = some b →
      ∀ p ∈ l,
        p.2 ≤ (((near_split 100 num_bins).getD (num_bins - 1) 0 : Nat) : ℚ) ∨
        ∃ k, k < num_bins ∧
          (((near_split 100 num_bins).getD k 0 : Nat) : ℚ) = p.2) := by
  have hp := near_split_pairwise 100 num_bins
  have hlen := near_split_length 100 num_bins h
  have hlast := near_split_last 100 num_bins h
  obtain ⟨hs1, hs2, hs3⟩ := digitize_spec v (near_split 100 num_bins) hp
  have hub : digitize v (near_split 100 num_bins) ≤ num_bins := by
    by_contra hcon
    push_neg at hcon
    have h100 := hs2 num_bins (by omega)
    rw [hlast] at h100
    have hlt : (100 : ℚ) < v := by exact_mod_cast h100
    linarith
  have hlb : num_bins ≤ digitize v (near_split 100 num_bins) := by
    by_contra hcon
    push_neg at hcon
    have h3 := hs3 (by omega)
    have hmono := pairwise_getD_le (near_split 100 num_bins) hp
      (digitize v (near_split 100 num_bins)) (num_bins - 1) (by omega) (by omega)
    have hc : (((near_split 100 num_bins).getD
        (digitize v (near_split 100 num_bins)) 0 : Nat) : ℚ) ≤
        (((near_split 100 num_bins).getD (num_bins - 1) 0 : Nat) : ℚ) := by
      exact_mod_cast hmono
    linarith
  have hdig : digitize v (near_split 100 num_bins) = num_bins := by omega
  refine ⟨hdig, ?_, ?_⟩
  · intro l hex
    obtain ⟨fid, hmem⟩ := hex
    unfold group_black_pixels
    rw [if_neg (by omega)]
    apply place_all_none
    refine ⟨(fid, digitize v (near_split 100 num_bins)), ?_, ?_⟩
    · exact List.mem_map.mpr ⟨(fid, v), hmem, rfl⟩
    · rw [List.length_replicate]
      omega
  · intro l b hsome p hmem
    left
    unfold group_black_pixels at hsome
    rw [if_neg (by omega)] at hsome
    have hall := place_all_some _ _ _ hsome (p.1, digitize p.2 (near_split 100 num_bins))
      (List.mem_map.mpr ⟨p, hmem, rfl⟩)
    rw [List.length_replicate] at hall
    obtain ⟨t1, t2, t3⟩ := digitize_spec p.2 (near_split 100 num_bins) hp
    have h3 := t3 (by omega)
    have hmono := pairwise_getD_le (near_split 100 num_bins) hp
      (digitize p.2 (near_split 100 num_bins)) (num_bins - 1) (by omega) (by omega)
    have hc : (((near_split 100 num_bins).getD
        (digitize p.2 (near_split 100 num_bins)) 0 : Nat) : ℚ) ≤
        (((near_split 100 num_bins).getD (num_bins - 1) 0 : Nat) : ℚ) := by
      exact_mod_cast hmono
    linarith

/-- Witness for C10: the fully black score 100 with four bins lies above
the second-to-last edge 75, gets digitize index 4, and the whole grouping
returns none on a list containing it. -/
theorem claim_C10_witness :
    ((((near_split 100 4).getD 3 0 : Nat) : ℚ) < 100) ∧
    digitize (100 : ℚ) (near_split 100 4) = 4 ∧
    group_black_pixels 4 [("black", (100 : ℚ))] = none := by
  have h := claim_C10_out_of_range_digitize 4 (by omega) 100 (by decide)
    (by norm_num)
  exact ⟨by decide, h.1, h.2.1 [("black", 100)] ⟨"black", by simp⟩⟩

/-! ### Claim C9: the face-cnn clustering step -/

theorem cnn_scores_getD (fl : Lmk) (groups : List (List NArr)) (k : Nat)
    (hk : k < groups.length) :
    (groups.map (fun refs => get_avg_score_faces_cnn fl refs)).getD k none =
      get_avg_score_faces_cnn fl (groups.getD k []) := by
  rw [List.getD_eq_getElem?_getD, List.getElem?_map,
    List.getElem?_eq_getElem hk, List.getD_eq_getElem?_getD,
    List.getElem?_eq_getElem hk]
  rfl

theorem cnn_best_le (fl : Lmk) (groups : List (List NArr)) (k : Nat)
    (hk : k < groups.length) :
    scoreLe (cnn_best fl groups).2 (get_avg_score_faces_cnn fl (groups.getD k [])) := by
  have h := (best_scan_spec (groups.map (fun refs => get_avg_score_faces_cnn fl refs))
    0 (-1, none)).2.1 k (by rw [List.length_map]; exact hk)
  rw [cnn_scores_getD fl groups k hk] at h
  exact h

theorem cnn_best_found (fl : Lmk) (groups : List (List NArr)) (s : ℚ)
    (hs : (cnn_best fl groups).2 = some s) :
    ∃ k, k < groups.length ∧ (cnn_best fl groups).1 = (k : Int) ∧
      get_avg_score_faces_cnn fl (groups.getD k []) = some s ∧
      ∀ k2, k2 < k → scoreLt (some s)
        (get_avg_score_faces_cnn fl (groups.getD k2 [])) = true := by
  rcases (best_scan_spec (groups.map (fun refs => get_avg_score_faces_cnn fl refs))
      0 (-1, none)).2.2 with heq | ⟨m, hm, h1, h2, _, h4⟩
  · exfalso
    have : (cnn_best fl groups).2 = none := by
      rw [show cnn_best fl groups =
        best_scan (groups.map (fun refs => get_avg_score_faces_cnn fl refs)) 0 (-1, none)
        from rfl, heq]
    rw [hs] at this
    simp at this
  · rw [List.length_map] at hm
    refine ⟨m, hm, ?_, ?_, ?_⟩
    · rw [show cnn_best fl groups =
        best_scan (groups.map (fun refs => get_avg_score_faces_cnn fl refs)) 0 (-1, none)
        from rfl, h1]
      simp
    · rw [← cnn_scores_getD fl groups m hm, ← h2, ← hs]
      rfl
    · intro k2 hk2
      have h5 := h4 k2 (by omega)
      rw [cnn_scores_getD fl groups k2 (by omega)] at h5
      rw [show best_scan (groups.map (fun refs => get_avg_score_faces_cnn fl refs))
        0 (-1, none) = cnn_best fl groups from rfl, hs] at h5
      exact h5

/-- C9: in the face-cnn online clustering step, the item is accepted into
an existing group (the bin count stays the same) if and only if some
existing group has a defined mean score strictly below the configured
threshold multiplied by 1000; the best score is the minimum of the group
mean scores with the earliest group winning ties; on acceptance the item
is appended to the bin of that best group, and otherwise it seeds a new
singleton group whose reference list holds the full landmark array. -/
theorem claim_C9_cnn_threshold_scaling (t : ℚ) (st : CnnState)
    (hinv : st.bins.length = st.groups.length) (item : String × Lmk) :
    ((cnn_step (t * 1000) st item).bins.length = st.bins.length ↔
      ∃ k, k < st.groups.length ∧ ∃ s : ℚ,
        get_avg_score_faces_cnn item.2 (st.groups.getD k []) = some s ∧
        s < t * 1000) ∧
    ((¬ ∃ k, k < st.groups.length ∧ ∃ s : ℚ,
        get_avg_score_faces_cnn item.2 (st.groups.getD k []) = some s ∧
        s < t * 1000) →
      (cnn_step (t * 1000) st item).bins = st.bins ++ [[item.1]] ∧
      (cnn_step (t * 1000) st item).groups = st.groups ++ [[NArr.mat item.2]]) ∧
    (∀ k, k < st.groups.length →
      scoreLe (cnn_best item.2 st.groups).2
        (get_avg_score_faces_cnn item.2 (st.groups.getD k []))) ∧
    (∀ s : ℚ, (cnn_best item.2 st.groups).2 = some s →
      ∃ k, k < st.groups.length ∧ (cnn_best item.2 st.groups).1 = (k : Int) ∧
        get_avg_score_faces_cnn item.2 (st.groups.getD k []) = some s ∧
        ∀ k2, k2 < k → scoreLt (some s)
          (get_avg_score_faces_cnn item.2 (st.groups.getD k2 [])) = true) ∧
    ((∃ k, k < st.groups.length ∧ ∃ s : ℚ,
        get_avg_score_faces_cnn item.2 (st.groups.getD k []) = some s ∧
        s < t * 1000) →
      (cnn_step (t * 1000) st item).bins =
        append_at st.bins (cnn_best item.2 st.groups).1.toNat item.1) := by
  have hex_of_lt : scoreLt (cnn_best item.2 st.groups).2 (some (t * 1000)) = true →
      ∃ k, k < st.groups.length ∧ ∃ s : ℚ,
        get_avg_score_faces_cnn item.2 (st.groups.getD k []) = some s ∧
        s < t * 1000 := by
    intro hlt
    obtain ⟨s, hseq, hslt⟩ := scoreLt_some hlt
    obtain ⟨k, hk, _, hscore, _⟩ := cnn_best_found item.2 st.groups s hseq
    exact ⟨k, hk, s, hscore, hslt⟩
  have hlt_of_ex : (∃ k, k < st.groups.length ∧ ∃ s : ℚ,
      get_avg_score_faces_cnn item.2 (st.groups.getD k []) = some s ∧
      s < t * 1000) →
      scoreLt (cnn_best item.2 st.groups).2 (some (t * 1000)) = true := by
    intro hex
    obtain ⟨k, hk, s, hscore, hslt⟩ := hex
    have hle := cnn_best_le item.2 st.groups k hk
    rw [hscore] at hle
    exact scoreLt_of_le_of_lt hle (by simpa [scoreLt] using hslt)
  by_cases hlt : scoreLt (cnn_best item.2 st.groups).2 (some (t * 1000)) = true
  · have hstep : cnn_step (t * 1000) st item =
        { groups := st.groups.set (cnn_best item.2 st.groups).1.toNat
            ((st.groups.getD (cnn_best item.2 st.groups).1.toNat []) ++
              [NArr.vec (item.2.headD [])]),
          bins := append_at st.bins (cnn_best item.2 st.groups).1.toNat item.1 } := by
      unfold cnn_step
      rw [if_pos hlt]
    refine ⟨?_, ?_, fun k hk => cnn_best_le item.2 st.groups k hk,
      fun s hs => cnn_best_found item.2 st.groups s hs, ?_⟩
    · constructor
      · intro _
        exact hex_of_lt hlt
      · intro _
        rw [hstep]
        unfold append_at
        rw [List.length_set]
    · intro hnex
      exact absurd (hex_of_lt hlt) hnex
    · intro _
      rw [hstep]
  · have hstep : cnn_step (t * 1000) st item =
        { groups := st.groups ++ [[NArr.mat item.2]],
          bins := st.bins ++ [[item.1]] } := by
      unfold cnn_step
      rw [if_neg hlt]
    refine ⟨?_, ?_, fun k hk => cnn_best_le item.2 st.groups k hk,
      fun s hs => cnn_best_found item.2 st.groups s hs, ?_⟩
    · constructor
      · intro hlen
        rw [hstep] at hlen
        simp at hlen
      · intro hex
        exact absurd (hlt_of_ex hex) hlt
    · intro _
      rw [hstep]
      exact ⟨rfl, rfl⟩
    · intro hex
      exact absurd (hlt_of_ex hex) hlt

/-- Witness for C9: a state with one group holding the landmark array of
rows 0 0, and an incoming item with rows 1 1: the mean score 2 is below
the scaled default threshold 7200, so the item is accepted and the bin
count stays at one. -/
theorem claim_C9_witness :
    ((cnn_step ((72 : ℚ) / 10 * 1000)
      { groups := [[NArr.mat [[0, 0]]]], bins := [["a"]] }
      ("b", [[1, 1]])).bins.length = 1) ∧
    get_avg_score_faces_cnn [[1, 1]] [NArr.mat [[0, 0]]] = some 2 := by
  have h := claim_C9_cnn_threshold_scaling ((72 : ℚ) / 10)
    { groups := [[NArr.mat [[0, 0]]]], bins := [["a"]] } rfl ("b", [[1, 1]])
  refine ⟨h.1.mpr ⟨0, by decide, 2, by decide, by norm_num⟩, by decide⟩

/-! ### Claim C1: the clustering loop never places the last item -/

/-- C1 (code bug evidence): the face-cnn grouping loop runs over
range(0, len(img_list) - 1) and therefore never processes the final item:
on a two-item input with the default threshold the returned bins hold only
the first item, so the bins are not a partition of the input (group_hist,
by contrast, seeds the first item and iterates over all the rest). -/
theorem claim_C1_partition_violated :
    group_face_cnn ((72 : ℚ) / 10) [("a", [[0, 0]]), ("b", [[5, 5]])] = [["a"]] ∧
    (∀ bin ∈ group_face_cnn ((72 : ℚ) / 10) [("a", [[0, 0]]), ("b", [[5, 5]])],
      "b" ∉ bin) :=
  ⟨by decide, by decide⟩

/-! ### ChangeLog dictionary facts -/

theorem lookupKey_setKey_self : ∀ (ch : Changes) (k v : String),
    lookupKey (setKey ch k v) k = some v
  | [], k, v => by simp [setKey, lookupKey]
  | (k0, v0) :: rest, k, v => by
    by_cases h : k0 = k
    · simp [setKey, lookupKey, h]
    · rw [show setKey ((k0, v0) :: rest) k v = (k0, v0) :: setKey rest k v from by
        simp [setKey, h]]
      rw [show lookupKey ((k0, v0) :: setKey rest k v) k = lookupKey (setKey rest k v) k
        from by simp [lookupKey, h]]
      exact lookupKey_setKey_self rest k v

theorem lookupKey_setKey_ne : ∀ (ch : Changes) (k v k2 : String), k2 ≠ k →
    lookupKey (setKey ch k v) k2 = lookupKey ch k2
  | [], k, v, k2, hne => by simp [setKey, lookupKey, Ne.symm hne]
  | (k0, v0) :: rest, k, v, k2, hne => by
    by_cases h : k0 = k
    · subst h
      rw [show setKey ((k0, v0) :: rest) k0 v = (k0, v) :: rest from by simp [setKey]]
      simp [lookupKey, Ne.symm hne]
    · rw [show setKey ((k0, v0) :: rest) k v = (k0, v0) :: setKey rest k v from by
        simp [setKey, h]]
      by_cases h2 : k0 = k2
      · simp [lookupKey, h2]
      · rw [show lookupKey ((k0, v0) :: setKey rest k v) k2 =
          lookupKey (setKey rest k v) k2 from by simp [lookupKey, h2]]
        rw [show lookupKey ((k0, v0) :: rest) k2 = lookupKey rest k2 from by
          simp [lookupKey, h2]]
        exact lookupKey_setKey_ne rest k v k2 hne

theorem mem_setKey : ∀ (ch : Changes) (k v : String) (p : String × String),
    p ∈ setKey ch k v → p = (k, v) ∨ p ∈ ch
  | [], k, v, p => by
    intro hp
    simp [setKey] at hp
    exact Or.inl (by rw [hp])
  | (k0, v0) :: rest, k, v, p => by
    intro hp
    by_cases h : k0 = k
    · rw [show setKey ((k0, v0) :: rest) k v = (k, v) :: rest from by simp [setKey, h]]
        at hp
      rw [List.mem_cons] at hp
      rcases hp with h2 | h2
      · exact Or.inl h2
      · exact Or.inr (List.mem_cons_of_mem _ h2)
    · rw [show setKey ((k0, v0) :: rest) k v = (k0, v0) :: setKey rest k v from by
        simp [setKey, h]] at hp
      rw [List.mem_cons] at hp
      rcases hp with h2 | h2
      · exact Or.inr (by rw [h2]; exact List.mem_cons_self _ _)
      · rcases mem_setKey rest k v p h2 with h3 | h3
        · exact Or.inl h3
        · exact Or.inr (List.mem_cons_of_mem _ h3)

/-! ### The two phases of final_process_rename -/

theorem process_file_missing (log_changes keep_original : Bool) (src dst : String)
    (fs : FS) (ch : Changes) (h : fs.contains src = false) :
    process_file log_changes keep_original src dst fs ch = none := by
  have h2 : src ∉ fs := by simpa using h
  cases keep_original <;> simp [process_file, fs_copy, fs_rename, h2]

theorem process_file_changes (keep_original : Bool) (src dst : String) (fs : FS)
    (ch : Changes) (st2 : FS × Changes)
    (h : process_file true keep_original src dst fs ch = some st2) :
    st2.2 = setKey ch src dst := by
  unfold process_file at h
  cases hop : (if keep_original then fs_copy fs src dst else fs_rename fs src dst) with
  | none =>
    rw [hop] at h
    exact absurd h (by simp)
  | some fs2 =>
    rw [hop] at h
    simp at h
    rw [← h]

theorem phase1_cons (log_changes keep_original : Bool) (output_dir : String)
    (i : Nat) (src : String) (rest : List (Nat × String)) (fs : FS) (ch : Changes) :
    phase1 log_changes keep_original output_dir ((i, src) :: rest) (fs, ch) =
      phase1 log_changes keep_original output_dir rest
        (match process_file log_changes keep_original src
            (pjoin output_dir (pad5 i ++ "_" ++ basename src)) fs ch with
          | none => (fs, ch)
          | some st2 => st2) := by
  show (match process_file log_changes keep_original src
      (pjoin output_dir (pad5 i ++ "_" ++ basename src)) fs ch with
    | none => phase1 log_changes keep_original output_dir rest (fs, ch)
    | some st2 => phase1 log_changes keep_original output_dir rest st2) = _
  cases process_file log_changes keep_original src
    (pjoin output_dir (pad5 i ++ "_" ++ basename src)) fs ch <;> rfl

theorem phase2_cons (output_dir : String) (i : Nat) (src : String)
    (rest : List (Nat × String)) (fs : FS) (ch : Changes) :
    phase2 true output_dir ((i, src) :: rest) (fs, ch) =
      phase2 true output_dir rest
        ((match fs_rename fs (pjoin output_dir (pad5 i ++ "_" ++ basename src))
            (pjoin output_dir (pad5 i ++ ext_of (basename src))) with
          | none => fs
          | some fs2 => fs2),
         setKey ch src (pjoin output_dir (pad5 i ++ ext_of (basename src)))) := by
  show (match fs_rename fs (pjoin output_dir (pad5 i ++ "_" ++ basename src))
      (pjoin output_dir (pad5 i ++ ext_of (basename src))) with
    | none => phase2 true output_dir rest
        (fs, setKey ch src (pjoin output_dir (pad5 i ++ ext_of (basename src))))
    | some fs2 => phase2 true output_dir rest
        (fs2, setKey ch src (pjoin output_dir (pad5 i ++ ext_of (basename src))))) = _
  cases fs_rename fs (pjoin output_dir (pad5 i ++ "_" ++ basename src))
    (pjoin output_dir (pad5 i ++ ext_of (basename src))) <;> rfl

theorem phase2_lookup_other : ∀ (output_dir : String) (items : List (Nat × String))
    (fs : FS) (ch : Changes) (k : String), (∀ q ∈ items, q.2 ≠ k) →
    lookupKey (phase2 true output_dir items (fs, ch)).2 k = lookupKey ch k
  | _, [], _, _, _, _ => rfl
  | output_dir, (j, g) :: rest, fs, ch, k, hk => by
    rw [phase2_cons]
    rw [phase2_lookup_other output_dir rest _ _ k
      (fun q hq => hk q (List.mem_cons_of_mem _ hq))]
    exact lookupKey_setKey_ne ch g _ k (Ne.symm (hk (j, g) (List.mem_cons_self _ _)))

theorem phase2_records : ∀ (output_dir : String) (items : List (Nat × String))
    (fs : FS) (ch : Changes) (i : Nat) (src : String), (i, src) ∈ items →
    (items.map Prod.snd).Nodup →
    lookupKey (phase2 true output_dir items (fs, ch)).2 src =
      some (pjoin output_dir (pad5 i ++ ext_of (basename src)))
  | _, [], _, _, _, _, hmem, _ => by simp at hmem
  | output_dir, (j, g) :: rest, fs, ch, i, src, hmem, hnd => by
    rw [List.map_cons, List.nodup_cons] at hnd
    rw [phase2_cons]
    rw [List.mem_cons] at hmem
    rcases hmem with heq | hmem2
    · rw [Prod.mk.injEq] at heq
      obtain ⟨hi, hsrc⟩ := heq
      subst hi
      subst hsrc
      rw [phase2_lookup_other output_dir rest _ _ src (fun q hq hqs =>
        hnd.1 (List.mem_map.mpr ⟨q, hq, hqs⟩))]
      exact lookupKey_setKey_self ch src _
    · exact phase2_records output_dir rest _ _ i src hmem2 hnd.2

theorem phase2_keys : ∀ (output_dir : String) (items : List (Nat × String))
    (fs : FS) (ch : Changes) (p : String × String),
    p ∈ (phase2 true output_dir items (fs, ch)).2 →
    p ∈ ch ∨ ∃ q ∈ items, p.1 = q.2
  | _, [], _, _, p => fun hp => Or.inl hp
  | output_dir, (j, g) :: rest, fs, ch, p => by
    intro hp
    rw [phase2_cons] at hp
    rcases phase2_keys output_dir rest _ _ p hp with h | ⟨q, hq, hpq⟩
    · rcases mem_setKey ch g _ p h with h2 | h2
      · exact Or.inr ⟨(j, g), List.mem_cons_self _ _, by rw [h2]⟩
      · exact Or.inl h2
    · exact Or.inr ⟨q, List.mem_cons_of_mem _ hq, hpq⟩

theorem phase1_keys : ∀ (keep_original : Bool) (output_dir : String)
    (items : List (Nat × String)) (fs : FS) (ch : Changes) (p : String × String),
    p ∈ (phase1 true keep_original output_dir items (fs, ch)).2 →
    p ∈ ch ∨ ∃ q ∈ items, p.1 = q.2
  | _, _, [], _, _, p => fun hp => Or.inl hp
  | keep_original, output_dir, (j, g) :: rest, fs, ch, p => by
    intro hp
    rw [phase1_cons] at hp
    cases hres : process_file true keep_original g
        (pjoin output_dir (pad5 j ++ "_" ++ basename g)) fs ch with
    | none =>
      rw [hres] at hp
      rcases phase1_keys keep_original output_dir rest fs ch p hp with h | ⟨q, hq, hpq⟩
      · exact Or.inl h
      · exact Or.inr ⟨q, List.mem_cons_of_mem _ hq, hpq⟩
    | some st2 =>
      rw [hres] at hp
      have hch := process_file_changes keep_original g
        (pjoin output_dir (pad5 j ++ "_" ++ basename g)) fs ch st2 hres
      have hp2 : p ∈ (phase1 true keep_original output_dir rest (st2.1, st2.2)).2 := hp
      rcases phase1_keys keep_original output_dir rest st2.1 st2.2 p hp2 with h | ⟨q, hq, hpq⟩
      · rw [hch] at h
        rcases mem_setKey ch g _ p h with h2 | h2
        · exact Or.inr ⟨(j, g), List.mem_cons_self _ _, by rw [h2]⟩
        · exact Or.inl h2
      · exact Or.inr ⟨q, List.mem_cons_of_mem _ hq, hpq⟩

/-! ### Claim C2 -/

/-- C2 counterexample: in rename mode with logging, when the source of the
second item is missing, both its scratch copy and its strip rename fail
and the item reaches neither scratch nor final form on disk, yet the
persisted ChangeLog still holds an entry for it, because the strip phase
records the mapping before attempting the rename. -/
theorem claim_C2_counterexample :
    lookupKey (final_process_rename true true "out" ["in/a.png", "in/b.png"]
      ["in/a.png"]).2 "in/b.png" = some "out/00001.png" ∧
    (final_process_rename true true "out" ["in/a.png", "in/b.png"]
      ["in/a.png"]).1.contains "out/00001.png" = false ∧
    (final_process_rename true true "out" ["in/a.png", "in/b.png"]
      ["in/a.png"]).1.contains "out/00001_b.png" = false :=
  ⟨by decide, by decide, by decide⟩

/-- C2 (amended): in rename mode with logging enabled the scratch-phase
closure records a ChangeLog entry only after its file operation succeeded
(a missing source records nothing in that phase), but the strip phase
records the mapping from each item original path to its final name
unconditionally, before the rename is attempted, so an item whose
scratch copy failed still appears in the persisted ChangeLog; on the
concrete two-item run with the second source missing, the first item
completes (present under its final name and logged) while the second is
absent from the output yet logged. -/
theorem claim_C2_changelog_on_failure :
    (∀ (keep_original : Bool) (src dst : String) (fs : FS) (ch : Changes),
      fs.contains src = false →
      process_file true keep_original src dst fs ch = none) ∧
    (∀ (output_dir : String) (l : List String) (fs : FS) (ch : Changes)
      (i : Nat) (src : String), l.Nodup → (i, src) ∈ l.enum →
      lookupKey (phase2 true output_dir l.enum (fs, ch)).2 src =
        some (pjoin output_dir (pad5 i ++ ext_of (basename src)))) ∧
    final_process_rename true true "out" ["in/a.png", "in/b.png"] ["in/a.png"] =
      (["in/a.png", "out/00000.png"],
       [("in/a.png", "out/00000.png"), ("in/b.png", "out/00001.png")]) := by
  refine ⟨?_, ?_, by decide⟩
  · intro keep_original src dst fs ch h
    exact process_file_missing true keep_original src dst fs ch h
  · intro output_dir l fs ch i src hnd hmem
    apply phase2_records output_dir l.enum fs ch i src hmem
    have h1 : l.enum.map Prod.snd = l := List.enumFrom_map_snd 0 l
    rw [h1]
    exact hnd

/-- Witness for C2: the two-item run with the second source missing. -/
theorem claim_C2_witness :
    (["in/a.png"] : FS).contains "in/b.png" = false ∧
    process_file true true "in/b.png" "out/00001_b.png" ["in/a.png"] [] = none ∧
    (["in/a.png", "in/b.png"] : List String).Nodup ∧
    lookupKey (phase2 true "out" (["in/a.png", "in/b.png"]).enum
        (["in/a.png"], [])).2 "in/b.png" =
      some (pjoin "out" (pad5 1 ++ ext_of (basename "in/b.png"))) := by
  have h := claim_C2_changelog_on_failure
  exact ⟨by decide,
    h.1 true "in/b.png" "out/00001_b.png" ["in/a.png"] [] (by decide),
    by decide,
    h.2.1 "out" ["in/a.png", "in/b.png"] ["in/a.png"] [] 1 "in/b.png"
      (by decide) (by decide)⟩

/-! ### Claim C7 -/

/-- C7 counterexample: on a fully successful one-item run the single
ChangeLog entry maps the original path to the final name; no entry is
keyed by the scratch name, so the log does not record the
scratch-to-final mapping the claim describes. -/
theorem claim_C7_counterexample :
    (final_process_rename true true "out" ["in/a.png"] ["in/a.png"]).2 =
      [("in/a.png", "out/00000.png")] ∧
    lookupKey (final_process_rename true true "out" ["in/a.png"] ["in/a.png"]).2
      "out/00000_a.png" = none :=
  ⟨by decide, by decide⟩

/-- C7 (amended): in rename mode with logging enabled, each item of the
run is keyed in the persisted ChangeLog by its original path and mapped
to its final name (the zero-padded index and original extension under the
output directory), the strip phase overwriting the scratch mapping the
scratch phase recorded; every key of the log is one of the input paths,
so no surviving entry is keyed by a scratch name unless that scratch name
was itself an input path. -/
theorem claim_C7_changelog_original_to_final (keep_original : Bool)
    (output_dir : String) (l : List String) (fs : FS) (hnd : l.Nodup) :
    (∀ i src, (i, src) ∈ l.enum →
      lookupKey (final_process_rename true keep_original output_dir l fs).2 src =
        some (pjoin output_dir (pad5 i ++ ext_of (basename src)))) ∧
    (∀ p ∈ (final_process_rename true keep_original output_dir l fs).2,
      p.1 ∈ l) := by
  have hmapsnd : l.enum.map Prod.snd = l := List.enumFrom_map_snd 0 l
  constructor
  · intro i src hmem
    exact phase2_records output_dir l.enum
      (phase1 true keep_original output_dir l.enum (fs, [])).1
      (phase1 true keep_original output_dir l.enum (fs, [])).2 i src hmem
      (by rw [hmapsnd]; exact hnd)
  · intro p hp
    have hp2 : p ∈ (phase2 true output_dir l.enum
        ((phase1 true keep_original output_dir l.enum (fs, [])).1,
         (phase1 true keep_original output_dir l.enum (fs, [])).2)).2 := hp
    rcases phase2_keys output_dir l.enum _ _ p hp2 with h | ⟨q, hq, hpq⟩
    · rcases phase1_keys keep_original output_dir l.enum fs [] p h with h2 | ⟨q, hq, hpq⟩
      · simp at h2
      · rw [hpq, ← hmapsnd]
        exact List.mem_map.mpr ⟨q, hq, rfl⟩
    · rw [hpq, ← hmapsnd]
      exact List.mem_map.mpr ⟨q, hq, rfl⟩

/-- Witness for C7: the one-item successful run, whose entry is keyed by
the original path. -/
theorem claim_C7_witness :
    (["in/a.png"] : List String).Nodup ∧
    lookupKey (final_process_rename true true "out" ["in/a.png"]
        ["in/a.png"]).2 "in/a.png" =
      some (pjoin "out" (pad5 0 ++ ext_of (basename "in/a.png"))) := by
  have h := claim_C7_changelog_original_to_final true "out" ["in/a.png"]
    ["in/a.png"] (by decide)
  exact ⟨by decide, h.1 0 "in/a.png" (by decide)⟩

/-! ### Claim C3 -/

theorem isPrefOf_refl : ∀ (l : List Char), isPrefOf l l = true
  | [] => rfl
  | c :: rest => by
    rw [show isPrefOf (c :: rest) (c :: rest) =
      ((c == c) && isPrefOf rest rest) from rfl]
    rw [isPrefOf_refl rest]
    simp

theorem containsSub_append_self : ∀ (p pre : List Char),
    containsSub p (pre ++ p) = true
  | p, [] => by
    cases p with
    | nil => rfl
    | cons c t =>
      rw [List.nil_append]
      rw [show containsSub (c :: t) (c :: t) =
        (isPrefOf (c :: t) (c :: t) || containsSub (c :: t) t) from rfl]
      rw [isPrefOf_refl]
      simp
  | p, c :: pre2 => by
    rw [List.cons_append]
    rw [show containsSub p (c :: (pre2 ++ p)) =
      (isPrefOf p (c :: (pre2 ++ p)) || containsSub p (pre2 ++ p)) from rfl]
    rw [containsSub_append_self p pre2]
    simp

/-- C3 counterexample: sorting by blur-fft and then grouping by blur uses
two genuinely different metrics, yet the substring test finds "blur"
inside "sort_blur_fft", so the pipeline trace contains no reload action;
the claimed equivalence with metric identity fails. -/
theorem claim_C3_counterexample :
    needs_reload "sort_blur_fft" "group_blur" = false ∧
    sort_process_trace "sort_blur_fft" "group_blur" "final_process_folders" =
      [PipeAction.runSort "sort_blur_fft", PipeAction.runGroup "group_blur",
       PipeAction.runFinal "final_process_folders"] ∧
    "blur_fft" ≠ "blur" :=
  ⟨by decide, by decide, by decide⟩

/-- C3 (amended): the re-fingerprinting pass runs if and only if the final
method name contains "folders" and the group method name with its group
prefix removed is not a substring of the sort method name; when the two
metric names are equal the test always finds the substring, so equal
metrics never trigger a reload, but a genuinely different group metric
whose name happens to be a substring of the sort method name does not
trigger one either. -/
theorem claim_C3_reload_substring (sm gm fm : String) :
    (PipeAction.runReload gm ∈ sort_process_trace sm gm fm ↔
      str_in "folders" fm = true ∧ needs_reload sm gm = true) ∧
    (∀ m : String, strip_group ("group_" ++ m) = m →
      needs_reload ("sort_" ++ m) ("group_" ++ m) = false) := by
  constructor
  · by_cases hf : str_in "folders" fm = true
    · by_cases hr : needs_reload sm gm = true
      · simp [sort_process_trace, hf, hr]
      · simp [sort_process_trace, hf, hr]
    · simp [sort_process_trace, hf]
  · intro m hm
    unfold needs_reload
    rw [hm]
    have h1 : str_in m ("sort_" ++ m) = true := by
      unfold str_in
      rw [String.data_append]
      exact containsSub_append_self m.data "sort_".data
    rw [h1]
    rfl

/-- Witness for C3: grouping and sorting by the same metric blur leaves
the reload untriggered, and the reload-membership equivalence holds at a
concrete genuinely-different pair. -/
theorem claim_C3_witness :
    strip_group ("group_" ++ "blur") = "blur" ∧
    needs_reload ("sort_" ++ "blur") ("group_" ++ "blur") = false ∧
    (PipeAction.runReload "group_hist" ∈
        sort_process_trace "sort_blur" "group_hist" "final_process_folders" ↔
      str_in "folders" "final_process_folders" = true ∧
      needs_reload "sort_blur" "group_hist" = true) := by
  have h := claim_C3_reload_substring "sort_blur" "group_hist"
    "final_process_folders"
  exact ⟨by decide, h.2 "blur" (by decide), h.1⟩

end FaceSort
